import Mathlib

/-!
Verification development for the pyDictNotes note store
(`src/pydictnotes.py`).

The store `NOTES` is a Python `dict` mapping entry names to
`{"description": str, "tags": [str, ...]}` records.  A Python `dict` is an
insertion-ordered mapping with unique keys, so we embed it as an
association list `List (String × Entry)`:
  lookup (`NOTES[k]`) finds the first pair with the given key,
  assignment (`NOTES[k] = v`) replaces the value in place when the key is
  present and appends a new pair at the end otherwise, and
  `NOTES.pop(k)` removes the pair (raising `KeyError` when absent).

Every mutating operation of the source is embedded as a function
`... → Store → Store × Option Err`: the returned store is the state of
`NOTES` when the operation finishes or when the exception escapes, and
the second component records the exception, using the spec's error
taxonomy (`KeyError` on `NOTES[entry]` is `entryNotFound`, `ValueError`
from `list.remove` is `tagNotFound`).

Python's `str.lower` is embedded on its ASCII fragment (`lowerChar`,
`lowerStr`), `list.sort` on strings as an ascending sort under the
code-point lexicographic order (`strLe`, `sortLe`), and `list(set(...))`
as `List.dedup` (Python's iteration order over a set is unspecified, so
any duplicate-free list with the same members is a faithful
representative).

Persistence (`save_file`, the load block of `__main__`, and
`save_file_pretty` / `print_entries_json`) is embedded at the level of
the JSON document: `storeToJson` is the document `json.dump` writes,
`jsonToStore` the typed reading of the document `json.loads` returns,
and `renderJson` the textual form with `json.dump`'s default separators
(the `\uXXXX` escaping of control and non-ASCII characters, and the
`indent=2` whitespace of the pretty variant, are elided; the claims
compare documents whose strings are plain ASCII).
-/

namespace PyDictNotes

/-- ASCII fragment of Python's `str.lower` on one character. -/
def lowerChar (c : Char) : Char :=
  if 65 ≤ c.toNat ∧ c.toNat ≤ 90 then Char.ofNat (c.toNat + 32) else c

/-- ASCII fragment of Python's `str.lower`. -/
def lowerStr (s : String) : String :=
  ⟨s.data.map lowerChar⟩

/-- Code-point lexicographic comparison of character lists, the order
Python's `list.sort` uses on strings. -/
def leChars : List Char → List Char → Bool
  | [], _ => true
  | _ :: _, [] => false
  | a :: as, b :: bs =>
    if a.toNat < b.toNat then true
    else if b.toNat < a.toNat then false
    else leChars as bs

/-- Python's `<=` on strings (code-point lexicographic order). -/
def strLe (a b : String) : Bool :=
  leChars a.data b.data

/-- Insert into a list sorted under `le`, keeping it sorted. -/
def insertLe (le : α → α → Bool) (x : α) : List α → List α
  | [] => [x]
  | y :: ys => if le x y then x :: y :: ys else y :: insertLe le x ys

/-- Ascending sort under `le`, the effect of Python's `list.sort` (the
elements the claims sort are either equal strings or pairs with distinct
keys, so stability is unobservable). -/
def sortLe (le : α → α → Bool) (l : List α) : List α :=
  l.foldr (insertLe le) []

/-- One record of the store: `{"description": ..., "tags": [...]}`. -/
structure Entry where
  description : String
  tags : List String
deriving DecidableEq, Repr

/-- The global `NOTES` dictionary: an insertion-ordered mapping from
entry names to entries, embedded as an association list. -/
abbrev Store := List (String × Entry)

/-- Error taxonomy of the spec (§7): `KeyError` on `NOTES[entry]` is
`entryNotFound`, `ValueError` from `list.remove` is `tagNotFound`;
`duplicateEntry` is the spec's `DuplicateEntry` error kind. -/
inductive Err where
  | entryNotFound
  | tagNotFound
  | duplicateEntry
deriving DecidableEq, Repr

/-- Dictionary lookup `NOTES[k]`: the value at the first pair whose key
is `k`, if any. -/
def find? (s : Store) (k : String) : Option Entry :=
  match s with
  | [] => none
  | (k', e) :: rest => if k' = k then some e else find? rest k

/-- Dictionary assignment `NOTES[k] = e`: replace in place when the key
is present, append at the end otherwise. -/
def setE (s : Store) (k : String) (e : Entry) : Store :=
  match s with
  | [] => [(k, e)]
  | (k', e') :: rest => if k' = k then (k, e) :: rest else (k', e') :: setE rest k e

/-- Dictionary removal `NOTES.pop(k)`: `none` models the `KeyError`
raised when the key is absent. -/
def popE (s : Store) (k : String) : Option Store :=
  match s with
  | [] => none
  | (k', e) :: rest =>
    if k' = k then some rest else (popE rest k).map (fun s' => (k', e) :: s')

/-- The keys of the store are pairwise distinct, as they are in any
Python dictionary. -/
abbrev keysNodup (s : Store) : Prop :=
  s.Pairwise (fun p q => p.1 ≠ q.1)

/-- `add_entry(entry, description, *args)` of the source: lowercases the
tag arguments, sorts them, and assigns
`NOTES[entry] = {"description": description, "tags": tags}` whether or
not the key already exists.  The `try` block never raises, so the
operation always succeeds. -/
def add_entry (entry description : String) (args : List String) (s : Store) :
    Store × Option Err :=
  (setE s entry ⟨description, sortLe strLe (args.map lowerStr)⟩, none)

/-- `edit_description(entry, new_desc)` of the source:
`NOTES[entry]["description"] = new_desc`; `KeyError` when the entry is
absent. -/
def edit_description (entry new_desc : String) (s : Store) : Store × Option Err :=
  match find? s entry with
  | none => (s, some Err.entryNotFound)
  | some e => (setE s entry ⟨new_desc, e.tags⟩, none)

/-- `add_tag(entry, tag)` of the source: appends `tag.lower()` to the
entry's tag list and stores `list(set(tags))`; `KeyError` when the entry
is absent. -/
def add_tag (entry tag : String) (s : Store) : Store × Option Err :=
  match find? s entry with
  | none => (s, some Err.entryNotFound)
  | some e => (setE s entry ⟨e.description, (e.tags ++ [lowerStr tag]).dedup⟩, none)

/-- `remove_tag(entry, tag)` of the source:
`NOTES[entry]["tags"].remove(tag.lower())`; `KeyError` when the entry is
absent, `ValueError` (leaving the list unchanged) when the lowered tag
is not in the list, otherwise the first occurrence is removed. -/
def remove_tag (entry tag : String) (s : Store) : Store × Option Err :=
  match find? s entry with
  | none => (s, some Err.entryNotFound)
  | some e =>
    if lowerStr tag ∈ e.tags then
      (setE s entry ⟨e.description, e.tags.erase (lowerStr tag)⟩, none)
    else (s, some Err.tagNotFound)

/-- `update_tags(entry, tags)` of the source: replaces the entry's tag
list with `list(set(map(lambda t: t.lower(), tags)))`; `KeyError` when
the entry is absent. -/
def update_tags (entry : String) (tags : List String) (s : Store) :
    Store × Option Err :=
  match find? s entry with
  | none => (s, some Err.entryNotFound)
  | some e => (setE s entry ⟨e.description, (tags.map lowerStr).dedup⟩, none)

/-- The deletion loop of `delete_entries`: `NOTES.pop(e)` for each name
in order; the first missing name raises `KeyError`, keeping the pops
already performed. -/
def popLoop : List String → Store → Store × Option Err
  | [], s => (s, none)
  | n :: rest, s =>
    match popE s n with
    | none => (s, some Err.entryNotFound)
    | some s' => popLoop rest s'

/-- `delete_entries(entries)` of the source.  With more than one name
the user is asked for confirmation; `confirmed` is the answer of that
prompt (a CLI collaborator), and a declined prompt returns without
deleting anything. -/
def delete_entries (confirmed : Bool) (entries : List String) (s : Store) :
    Store × Option Err :=
  if entries.length > 1 && !confirmed then (s, none) else popLoop entries s

/-- A JSON document, as far as this program produces one: strings,
arrays and (ordered) objects. -/
inductive Json where
  | str (s : String)
  | arr (elems : List Json)
  | obj (members : List (String × Json))

/-- The JSON object written for one entry:
`{"description": ..., "tags": [...]}`. -/
def encodeEntry (e : Entry) : Json :=
  Json.obj [("description", Json.str e.description),
            ("tags", Json.arr (e.tags.map Json.str))]

/-- The JSON document `json.dump(NOTES, out_file)` writes in
`save_file`: the store's entries, in insertion order. -/
def storeToJson (s : Store) : Json :=
  Json.obj (s.map fun p => (p.1, encodeEntry p.2))

/-- Reading the tag array of a loaded document back as a list of
strings. -/
def decodeTags : List Json → Option (List String)
  | [] => some []
  | Json.str t :: rest => (decodeTags rest).map (fun ts => t :: ts)
  | _ => none

/-- Reading one entry record of a loaded document. -/
def decodeEntry : Json → Option Entry
  | Json.obj [("description", Json.str d), ("tags", Json.arr ts)] =>
    (decodeTags ts).map (fun l => ⟨d, l⟩)
  | _ => none

/-- Reading the members of a loaded top-level object back as a store. -/
def decodeStore : List (String × Json) → Option Store
  | [] => some []
  | (k, v) :: rest =>
    match decodeEntry v with
    | some e => (decodeStore rest).map (fun s => (k, e) :: s)
    | none => none

/-- The store obtained from the document `json.loads` parses in the
load block of `__main__` (the block assigns the parsed object to `NOTES`
unchanged, so the store is exactly the document read as a mapping of
entry records). -/
def jsonToStore : Json → Option Store
  | Json.obj ms => decodeStore ms
  | _ => none

/-- Escaping of a JSON string literal (quotes and backslashes; the
`\uXXXX` escaping of control and non-ASCII characters is elided, the
claims only compare plain-ASCII documents). -/
def escChar (c : Char) : String :=
  if c = '"' then "\\\"" else if c = '\\' then "\\\\" else String.singleton c

/-- A rendered JSON string literal. -/
def escapeStr (s : String) : String :=
  "\"" ++ String.join (s.data.map escChar) ++ "\""

mutual

/-- The text `json.dump` writes for a document, with its default
separators `", "` and `": "`. -/
def renderJson : Json → String
  | Json.str s => escapeStr s
  | Json.arr es => "[" ++ renderArr es ++ "]"
  | Json.obj ms => "\x7b" ++ renderObj ms ++ "\x7d"

/-- Comma-separated rendering of array elements. -/
def renderArr : List Json → String
  | [] => ""
  | [j] => renderJson j
  | j :: rest => renderJson j ++ ", " ++ renderArr rest

/-- Comma-separated rendering of object members. -/
def renderObj : List (String × Json) → String
  | [] => ""
  | [(k, v)] => escapeStr k ++ ": " ++ renderJson v
  | (k, v) :: rest => escapeStr k ++ ": " ++ renderJson v ++ ", " ++ renderObj rest

end

/-- `save_file()` of the source: the bytes `json.dump(NOTES, out_file)`
writes, entries in the dictionary's insertion order (no `sort_keys`). -/
def save_file (s : Store) : String :=
  renderJson (storeToJson s)

/-- The store reordered by sorted entry name, the effect of
`sort_keys=True`. -/
def sortByKey (s : Store) : Store :=
  sortLe (fun p q => strLe p.1 q.1) s

/-- `save_file_pretty()` of the source:
`json.dumps(NOTES, sort_keys=True, indent=2, separators=(",", ": "))`,
modeled up to the entry-name sorting that `sort_keys=True` performs (the
`indent=2` whitespace layout is elided, it is a fixed function of the
member sequence). -/
def save_file_pretty (s : Store) : String :=
  renderJson (storeToJson (sortByKey s))

/-- The mutation operations claim C3 ranges over. -/
inductive Op where
  | add (entry description : String) (args : List String)
  | tag (entry t : String)
  | untag (entry t : String)
  | retag (entry : String) (tags : List String)
deriving DecidableEq, Repr

/-- The store after one operation (exceptions leave the store as the
operation left it, which for these operations is unchanged). -/
def applyOp (s : Store) : Op → Store
  | Op.add n d ts => (add_entry n d ts s).1
  | Op.tag n t => (add_tag n t s).1
  | Op.untag n t => (remove_tag n t s).1
  | Op.retag n ts => (update_tags n ts s).1

/-- The store after a sequence of operations, starting from the empty
store. -/
def runOps (ops : List Op) : Store :=
  ops.foldl applyOp []

/-- The tag-set invariant as the spec states it (§3(b)): only
non-empty, lowercase tags, no duplicates. -/
abbrev TagsSpecInv (s : Store) : Prop :=
  ∀ p ∈ s, p.2.tags.Nodup ∧ ∀ t ∈ p.2.tags, t ≠ "" ∧ lowerStr t = t

/-- The part of the tag-set invariant the code actually maintains:
every stored tag is lowercase. -/
abbrev TagsLowered (s : Store) : Prop :=
  ∀ p ∈ s, ∀ t ∈ p.2.tags, lowerStr t = t

/-- The data-model invariants of spec §3: non-empty, pairwise-distinct
entry names, and tag sets of non-empty, lowercase, duplicate-free
tags. -/
abbrev StoreInv (s : Store) : Prop :=
  keysNodup s ∧ ∀ p ∈ s, p.1 ≠ "" ∧ p.2.tags.Nodup ∧
    ∀ t ∈ p.2.tags, t ≠ "" ∧ lowerStr t = t

/-! Helper lemmas about lowering. -/

theorem lowerChar_lowerChar (c : Char) : lowerChar (lowerChar c) = lowerChar c := by
  unfold lowerChar
  by_cases h : 65 ≤ c.toNat ∧ c.toNat ≤ 90
  · simp only [if_pos h]
    obtain ⟨h1, h2⟩ := h
    generalize c.toNat = m at h1 h2
    interval_cases m <;> decide
  · simp only [if_neg h]

theorem lowerStr_lowerStr (t : String) : lowerStr (lowerStr t) = lowerStr t := by
  cases t with
  | mk l =>
    apply congrArg String.mk
    show (l.map lowerChar).map lowerChar = l.map lowerChar
    rw [List.map_map]
    exact List.map_congr_left (fun a _ => lowerChar_lowerChar a)

/-! Helper lemmas about the lexicographic string order. -/

theorem char_eq_of_toNat_eq {a b : Char} (h : a.toNat = b.toNat) : a = b :=
  Char.eq_of_val_eq (UInt32.ext h)

theorem leChars_total : ∀ (a b : List Char), leChars a b = true ∨ leChars b a = true
  | [], _ => Or.inl rfl
  | _ :: _, [] => Or.inr rfl
  | x :: xs, y :: ys => by
    by_cases hxy : x.toNat < y.toNat
    · exact Or.inl (by simp [leChars, hxy])
    · by_cases hyx : y.toNat < x.toNat
      · exact Or.inr (by simp [leChars, hyx])
      · rcases leChars_total xs ys with h | h
        · exact Or.inl (by simp [leChars, hxy, hyx, h])
        · exact Or.inr (by simp [leChars, hyx, hxy, h])

theorem leChars_trans {a b c : List Char} (h1 : leChars a b = true)
    (h2 : leChars b c = true) : leChars a c = true := by
  induction a generalizing b c with
  | nil => rfl
  | cons x xs ih =>
    cases b with
    | nil => simp [leChars] at h1
    | cons y ys =>
      cases c with
      | nil => simp [leChars] at h2
      | cons z zs =>
        by_cases hxy : x.toNat < y.toNat
        · by_cases hyz : y.toNat < z.toNat
          · simp [leChars, show x.toNat < z.toNat by omega]
          · by_cases hzy : z.toNat < y.toNat
            · simp [leChars, hyz, hzy] at h2
            · simp [leChars, show x.toNat < z.toNat by omega]
        · by_cases hyx : y.toNat < x.toNat
          · simp [leChars, hxy, hyx] at h1
          · simp only [leChars, if_neg hxy, if_neg hyx] at h1
            by_cases hyz : y.toNat < z.toNat
            · simp [leChars, show x.toNat < z.toNat by omega]
            · by_cases hzy : z.toNat < y.toNat
              · simp [leChars, hyz, hzy] at h2
              · simp only [leChars, if_neg hyz, if_neg hzy] at h2
                simp only [leChars, if_neg (show ¬ x.toNat < z.toNat by omega),
                  if_neg (show ¬ z.toNat < x.toNat by omega)]
                exact ih h1 h2

theorem leChars_antisymm : ∀ {a b : List Char},
    leChars a b = true → leChars b a = true → a = b
  | [], [], _, _ => rfl
  | [], _ :: _, _, h2 => by simp [leChars] at h2
  | _ :: _, [], h1, _ => by simp [leChars] at h1
  | x :: xs, y :: ys, h1, h2 => by
    by_cases hxy : x.toNat < y.toNat
    · simp [leChars, hxy, show ¬ y.toNat < x.toNat by omega] at h2
    · by_cases hyx : y.toNat < x.toNat
      · simp [leChars, hxy, hyx] at h1
      · simp only [leChars, if_neg hxy, if_neg hyx] at h1 h2
        have hxs := leChars_antisymm h1 h2
        have hx : x = y := char_eq_of_toNat_eq (by omega)
        rw [hx, hxs]

theorem strLe_total (a b : String) : strLe a b = true ∨ strLe b a = true :=
  leChars_total a.data b.data

theorem strLe_trans {a b c : String} (h1 : strLe a b = true)
    (h2 : strLe b c = true) : strLe a c = true :=
  leChars_trans h1 h2

theorem strLe_antisymm {a b : String} (h1 : strLe a b = true)
    (h2 : strLe b a = true) : a = b := by
  cases a; cases b
  exact congrArg String.mk (leChars_antisymm h1 h2)

/-! Helper lemmas about the insertion sort. -/

theorem perm_insertLe (le : α → α → Bool) (x : α) (l : List α) :
    (insertLe le x l).Perm (x :: l) := by
  induction l with
  | nil => exact List.Perm.refl _
  | cons y ys ih =>
    unfold insertLe
    by_cases h : le x y
    · simp only [if_pos h]
      exact List.Perm.refl _
    · simp only [if_neg h]
      exact (ih.cons y).trans (List.Perm.swap x y ys)

theorem perm_sortLe (le : α → α → Bool) (l : List α) : (sortLe le l).Perm l := by
  induction l with
  | nil => exact List.Perm.refl _
  | cons x xs ih =>
    show (insertLe le x (sortLe le xs)).Perm (x :: xs)
    exact (perm_insertLe le x (sortLe le xs)).trans (ih.cons x)

theorem pairwise_insertLe (le : α → α → Bool)
    (htrans : ∀ a b c, le a b = true → le b c = true → le a c = true)
    (htot : ∀ a b, le a b = true ∨ le b a = true) (x : α) {l : List α}
    (hl : l.Pairwise (fun a b => le a b = true)) :
    (insertLe le x l).Pairwise (fun a b => le a b = true) := by
  induction l with
  | nil => simp [insertLe]
  | cons y ys ih =>
    rcases List.pairwise_cons.mp hl with ⟨hy, hys⟩
    unfold insertLe
    by_cases h : le x y
    · simp only [if_pos h]
      refine List.pairwise_cons.mpr ⟨?_, hl⟩
      intro z hz
      rcases List.mem_cons.mp hz with rfl | hz'
      · exact h
      · exact htrans x y z h (hy z hz')
    · simp only [if_neg h]
      refine List.pairwise_cons.mpr ⟨?_, ih hys⟩
      intro z hz
      rcases List.mem_cons.mp ((perm_insertLe le x ys).mem_iff.mp hz) with rfl | hz'
      · rcases htot z y with hzy | hyz
        · exact absurd hzy h
        · exact hyz
      · exact hy z hz'

theorem pairwise_sortLe (le : α → α → Bool)
    (htrans : ∀ a b c, le a b = true → le b c = true → le a c = true)
    (htot : ∀ a b, le a b = true ∨ le b a = true) (l : List α) :
    (sortLe le l).Pairwise (fun a b => le a b = true) := by
  induction l with
  | nil => simp [sortLe]
  | cons x xs ih => exact pairwise_insertLe le htrans htot x ih

/-! Helper lemmas about the store. -/

theorem find?_setE_self (s : Store) (k : String) (e : Entry) :
    find? (setE s k e) k = some e := by
  induction s with
  | nil => simp [setE, find?]
  | cons p rest ih =>
    obtain ⟨k', e'⟩ := p
    by_cases h : k' = k
    · simp [setE, h, find?]
    · simp [setE, h, find?, ih]

theorem find?_setE_ne (s : Store) {k k' : String} (e : Entry) (h : k' ≠ k) :
    find? (setE s k e) k' = find? s k' := by
  induction s with
  | nil =>
    simp only [setE, find?]
    rw [if_neg (fun hh : k = k' => h hh.symm)]
  | cons p rest ih =>
    obtain ⟨k0, e0⟩ := p
    by_cases h0 : k0 = k
    · subst h0
      have hk : ¬ k0 = k' := fun hh => h (hh.symm)
      simp [setE, find?, hk]
    · by_cases h1 : k0 = k'
      · subst h1
        simp [setE, h0, find?]
      · simp [setE, h0, find?, h1, ih]

theorem mem_setE {s : Store} {k : String} {e : Entry} {p : String × Entry}
    (h : p ∈ setE s k e) : p = (k, e) ∨ p ∈ s := by
  induction s with
  | nil =>
    simp [setE] at h
    exact Or.inl h
  | cons q rest ih =>
    obtain ⟨k0, e0⟩ := q
    by_cases h0 : k0 = k
    · simp only [setE, if_pos h0] at h
      rcases List.mem_cons.mp h with rfl | hr
      · exact Or.inl rfl
      · exact Or.inr (List.mem_cons_of_mem _ hr)
    · simp only [setE, if_neg h0] at h
      rcases List.mem_cons.mp h with rfl | hr
      · exact Or.inr (List.mem_cons_self _ _)
      · rcases ih hr with h' | h'
        · exact Or.inl h'
        · exact Or.inr (List.mem_cons_of_mem _ h')

theorem mem_of_find? {s : Store} {k : String} {e : Entry}
    (h : find? s k = some e) : (k, e) ∈ s := by
  induction s with
  | nil => simp [find?] at h
  | cons p rest ih =>
    obtain ⟨k0, e0⟩ := p
    by_cases h0 : k0 = k
    · simp only [find?, if_pos h0] at h
      subst h0
      rw [Option.some_inj] at h
      subst h
      exact List.mem_cons_self _ _
    · simp only [find?, if_neg h0] at h
      exact List.mem_cons_of_mem _ (ih h)

theorem find?_of_mem {s : Store} (hn : keysNodup s) {k : String} {e : Entry}
    (hm : (k, e) ∈ s) : find? s k = some e := by
  induction s with
  | nil => simp at hm
  | cons p rest ih =>
    obtain ⟨k0, e0⟩ := p
    rcases List.pairwise_cons.mp hn with ⟨h0, hrest⟩
    rcases List.mem_cons.mp hm with heq | hr
    · have hk : k = k0 := congrArg Prod.fst heq
      have he : e = e0 := congrArg Prod.snd heq
      subst hk
      subst he
      simp [find?]
    · have hne : k0 ≠ k := h0 (k, e) hr
      simp only [find?, if_neg hne]
      exact ih hrest hr

theorem find?_eq_none_of_not_key {s : Store} {k : String}
    (h : ∀ p ∈ s, p.1 ≠ k) : find? s k = none := by
  induction s with
  | nil => simp [find?]
  | cons p rest ih =>
    obtain ⟨k0, e0⟩ := p
    have h0 : k0 ≠ k := h (k0, e0) (List.mem_cons_self _ _)
    simp only [find?, if_neg h0]
    exact ih (fun q hq => h q (List.mem_cons_of_mem _ hq))

theorem popE_subset {s : Store} {k : String} {s' : Store}
    (h : popE s k = some s') : ∀ p ∈ s', p ∈ s := by
  induction s generalizing s' with
  | nil => simp [popE] at h
  | cons q rest ih =>
    obtain ⟨k0, e0⟩ := q
    by_cases h0 : k0 = k
    · simp only [popE, if_pos h0, Option.some_inj] at h
      subst h
      exact fun p hp => List.mem_cons_of_mem _ hp
    · simp only [popE, if_neg h0] at h
      cases hr : popE rest k with
      | none => rw [hr] at h; simp at h
      | some r =>
        rw [hr] at h
        simp only [Option.map_some', Option.some_inj] at h
        subst h
        intro p hp
        rcases List.mem_cons.mp hp with rfl | hp'
        · exact List.mem_cons_self _ _
        · exact List.mem_cons_of_mem _ (ih hr p hp')

theorem popE_spec {s : Store} {k : String} {s' : Store} (hn : keysNodup s)
    (h : popE s k = some s') :
    keysNodup s' ∧ ∀ k', find? s' k' = if k' = k then none else find? s k' := by
  induction s generalizing s' with
  | nil => simp [popE] at h
  | cons q rest ih =>
    obtain ⟨k0, e0⟩ := q
    rcases List.pairwise_cons.mp hn with ⟨h0, hrest⟩
    by_cases hk : k0 = k
    · subst hk
      simp only [popE, if_true, eq_self_iff_true, Option.some_inj] at h
      subst h
      refine ⟨hrest, fun k' => ?_⟩
      by_cases hk' : k' = k0
      · subst hk'
        rw [if_pos rfl]
        exact find?_eq_none_of_not_key (fun p hp => (h0 p hp).symm)
      · rw [if_neg hk']
        simp only [find?]
        rw [if_neg (fun hh : k0 = k' => hk' hh.symm)]
    · simp only [popE, if_neg hk] at h
      cases hr : popE rest k with
      | none => rw [hr] at h; simp at h
      | some r =>
        rw [hr] at h
        simp only [Option.map_some', Option.some_inj] at h
        subst h
        obtain ⟨hr1, hr2⟩ := ih hrest hr
        refine ⟨List.pairwise_cons.mpr ⟨?_, hr1⟩, fun k' => ?_⟩
        · exact fun p hp => h0 p (popE_subset hr p hp)
        · by_cases h1 : k0 = k'
          · subst h1
            rw [if_neg (fun hh : k0 = k => hk hh)]
            simp [find?]
          · simp only [find?, if_neg h1, hr2 k']

theorem popE_of_find? {s : Store} {k : String} {e : Entry}
    (h : find? s k = some e) : ∃ s', popE s k = some s' := by
  induction s with
  | nil => simp [find?] at h
  | cons q rest ih =>
    obtain ⟨k0, e0⟩ := q
    by_cases h0 : k0 = k
    · exact ⟨rest, by simp [popE, h0]⟩
    · simp only [find?, if_neg h0] at h
      obtain ⟨r, hr⟩ := ih h
      exact ⟨(k0, e0) :: r, by simp [popE, h0, hr]⟩

theorem popLoop_spec {names : List String} {s : Store} (hn : keysNodup s)
    (hnd : names.Nodup) (hall : ∀ n ∈ names, find? s n ≠ none) :
    (popLoop names s).2 = none ∧
    (∀ n ∈ names, find? (popLoop names s).1 n = none) ∧
    (∀ k, k ∉ names → find? (popLoop names s).1 k = find? s k) := by
  induction names generalizing s with
  | nil => simp [popLoop]
  | cons n rest ih =>
    have hfn : find? s n ≠ none := hall n (List.mem_cons_self _ _)
    obtain ⟨e, he⟩ : ∃ e, find? s n = some e := by
      cases hf : find? s n with
      | none => exact absurd hf hfn
      | some e => exact ⟨e, rfl⟩
    obtain ⟨s1, hs1⟩ := popE_of_find? he
    obtain ⟨hn1, hfind⟩ := popE_spec hn hs1
    rcases List.nodup_cons.mp hnd with ⟨hnn, hrest⟩
    simp only [popLoop, hs1]
    have hall1 : ∀ m ∈ rest, find? s1 m ≠ none := by
      intro m hm
      rw [hfind m, if_neg (fun hh : m = n => hnn (hh ▸ hm))]
      exact hall m (List.mem_cons_of_mem _ hm)
    obtain ⟨h1, h2, h3⟩ := ih hn1 hrest hall1
    refine ⟨h1, fun m hm => ?_, fun k hk => ?_⟩
    · rcases List.mem_cons.mp hm with rfl | hr
      · rw [h3 m hnn, hfind m, if_pos rfl]
      · exact h2 m hr
    · have hk1 : k ≠ n := fun hh => hk (hh ▸ List.mem_cons_self _ _)
      have hk2 : k ∉ rest := fun hh => hk (List.mem_cons_of_mem _ hh)
      rw [h3 k hk2, hfind k, if_neg hk1]

/-! Preservation of lowercase tags (claim C3). -/

theorem tagsLowered_applyOp {s : Store} (h : TagsLowered s) (o : Op) :
    TagsLowered (applyOp s o) := by
  cases o with
  | add n d ts =>
    intro p hp t ht
    simp only [applyOp, add_entry] at hp
    rcases mem_setE hp with rfl | hp'
    · have hm : t ∈ ts.map lowerStr :=
        (perm_sortLe strLe (ts.map lowerStr)).mem_iff.mp ht
      obtain ⟨u, _, rfl⟩ := List.mem_map.mp hm
      exact lowerStr_lowerStr u
    · exact h p hp' t ht
  | tag n t0 =>
    intro p hp t ht
    simp only [applyOp, add_tag] at hp
    split at hp
    · exact h p hp t ht
    · rename_i e heq
      rcases mem_setE hp with rfl | hp'
      · rcases List.mem_append.mp (List.mem_dedup.mp ht) with h1 | h1
        · exact h (n, e) (mem_of_find? heq) t h1
        · rw [List.mem_singleton.mp h1]
          exact lowerStr_lowerStr t0
      · exact h p hp' t ht
  | untag n t0 =>
    intro p hp t ht
    simp only [applyOp, remove_tag] at hp
    split at hp
    · exact h p hp t ht
    · rename_i e heq
      split at hp
      · rcases mem_setE hp with rfl | hp'
        · exact h (n, e) (mem_of_find? heq) t (List.mem_of_mem_erase ht)
        · exact h p hp' t ht
      · exact h p hp t ht
  | retag n ts =>
    intro p hp t ht
    simp only [applyOp, update_tags] at hp
    split at hp
    · exact h p hp t ht
    · rename_i e heq
      rcases mem_setE hp with rfl | hp'
      · obtain ⟨u, _, rfl⟩ := List.mem_map.mp (List.mem_dedup.mp ht)
        exact lowerStr_lowerStr u
      · exact h p hp' t ht

theorem tagsLowered_foldl {s : Store} (h : TagsLowered s) (ops : List Op) :
    TagsLowered (ops.foldl applyOp s) := by
  induction ops generalizing s with
  | nil => exact h
  | cons o rest ih => exact ih (tagsLowered_applyOp h o)

/-! Round trip of the persisted document (claim C5). -/

theorem decodeTags_map_str (l : List String) :
    decodeTags (l.map Json.str) = some l := by
  induction l with
  | nil => rfl
  | cons t ts ih => simp [decodeTags, ih]

theorem decodeEntry_encodeEntry (e : Entry) :
    decodeEntry (encodeEntry e) = some e := by
  obtain ⟨d, ts⟩ := e
  simp [encodeEntry, decodeEntry, decodeTags_map_str]

theorem decodeStore_encode (s : Store) :
    decodeStore (s.map fun p => (p.1, encodeEntry p.2)) = some s := by
  induction s with
  | nil => rfl
  | cons p rest ih =>
    simp [decodeStore, decodeEntry_encodeEntry, ih]

/-! Key-sorted serialization is a function of the mapping (claim C8). -/

theorem nodupPairs_of_keysNodup {s : Store} (hn : keysNodup s) : s.Nodup :=
  hn.imp (fun hne => by intro hh; exact hne (congrArg Prod.fst hh))

theorem perm_of_eqAsMap {s1 s2 : Store} (h1 : keysNodup s1) (h2 : keysNodup s2)
    (hm : ∀ k, find? s1 k = find? s2 k) : s1.Perm s2 := by
  rw [List.perm_ext_iff_of_nodup (nodupPairs_of_keysNodup h1)
    (nodupPairs_of_keysNodup h2)]
  intro p
  obtain ⟨k, e⟩ := p
  constructor
  · intro hp
    exact mem_of_find? ((hm k).symm.trans (find?_of_mem h1 hp))
  · intro hp
    exact mem_of_find? ((hm k).trans (find?_of_mem h2 hp))

theorem keysNodup_sortByKey {s : Store} (hn : keysNodup s) :
    keysNodup (sortByKey s) :=
  ((perm_sortLe _ s).pairwise_iff (fun hne => Ne.symm hne)).mpr hn

theorem sortByKey_eq {s1 s2 : Store} (h1 : keysNodup s1) (h2 : keysNodup s2)
    (hm : ∀ k, find? s1 k = find? s2 k) : sortByKey s1 = sortByKey s2 := by
  have hp : s1.Perm s2 := perm_of_eqAsMap h1 h2 hm
  have hps : (sortByKey s1).Perm (sortByKey s2) :=
    (perm_sortLe _ s1).trans (hp.trans (perm_sortLe _ s2).symm)
  have htrans : ∀ p q r : String × Entry, strLe p.1 q.1 = true →
      strLe q.1 r.1 = true → strLe p.1 r.1 = true :=
    fun _ _ _ hab hbc => strLe_trans hab hbc
  have htot : ∀ p q : String × Entry,
      strLe p.1 q.1 = true ∨ strLe q.1 p.1 = true :=
    fun p q => strLe_total p.1 q.1
  have hs1 := (pairwise_sortLe _ htrans htot s1).and (keysNodup_sortByKey h1)
  have hs2 := (pairwise_sortLe _ htrans htot s2).and (keysNodup_sortByKey h2)
  exact @List.eq_of_perm_of_sorted _
    (fun p q : String × Entry => strLe p.1 q.1 = true ∧ p.1 ≠ q.1)
    ⟨fun a b hab hba => absurd (strLe_antisymm hab.1 hba.1) hab.2⟩
    _ _ hps hs1 hs2

/-! The claims. -/

/-- Claim C1, counterexample: with the batch confirmed, deleting
`["a", "missing"]` from a store holding only `"a"` fails with
`EntryNotFound`, but `"a"` has already been popped, so the store is not
left unchanged. -/
theorem claim1_batch_delete_not_atomic :
    (delete_entries true ["a", "missing"] [("a", ⟨"d", []⟩)]).2 =
      some Err.entryNotFound ∧
    (delete_entries true ["a", "missing"] [("a", ⟨"d", []⟩)]).1 = [] ∧
    find? (delete_entries true ["a", "missing"] [("a", ⟨"d", []⟩)]).1 "a" =
      none := by
  decide

/-- Claim C1, amended: batch deletion is not atomic — on a missing name
`delete_entries` fails with `EntryNotFound` after having already removed
the names earlier in the list; when every (distinct) name is present,
the batch succeeds, all named entries are removed, and every other entry
is untouched. -/
theorem claim1_batch_delete (names : List String) (s : Store)
    (hn : keysNodup s) (hnd : names.Nodup)
    (hall : ∀ n ∈ names, find? s n ≠ none) :
    (delete_entries true names s).2 = none ∧
    (∀ n ∈ names, find? (delete_entries true names s).1 n = none) ∧
    (∀ k, k ∉ names → find? (delete_entries true names s).1 k = find? s k) := by
  have hd : delete_entries true names s = popLoop names s := by
    simp [delete_entries]
  rw [hd]
  exact popLoop_spec hn hnd hall

/-- Witness for claim C1 at a concrete store and name list. -/
theorem claim1_batch_delete_witness :
    (delete_entries true ["a", "b"]
      [("a", ⟨"d", []⟩), ("b", ⟨"e", []⟩)]).2 = none :=
  (claim1_batch_delete ["a", "b"] [("a", ⟨"d", []⟩), ("b", ⟨"e", []⟩)]
    (by decide) (by decide) (by decide)).1

/-- Claim C2, counterexample: on a store already holding `"a"`,
`add_entry("a", ...)` does not fail with `DuplicateEntry` and does not
leave the existing entry unchanged — it overwrites it. -/
theorem claim2_add_entry_overwrites :
    (add_entry "a" "new" [] [("a", ⟨"d", ["x"]⟩)]).2 ≠
      some Err.duplicateEntry ∧
    find? (add_entry "a" "new" [] [("a", ⟨"d", ["x"]⟩)]).1 "a" ≠
      some ⟨"d", ["x"]⟩ := by
  decide

/-- Claim C2, amended: `add_entry` always succeeds; it stores an entry
with the given description and the lowercased, sorted tag arguments
under the given name, overwriting any existing entry with that name and
creating the entry when the name is absent. -/
theorem claim2_add_entry (n d : String) (ts : List String) (s : Store) :
    (add_entry n d ts s).2 = none ∧
    find? (add_entry n d ts s).1 n =
      some ⟨d, sortLe strLe (ts.map lowerStr)⟩ :=
  ⟨rfl, find?_setE_self s n _⟩

/-- Claim C3, counterexample: from the empty store,
`add_entry("x", "d", "foo", "foo")` produces the tag list
`["foo", "foo"]`, so the spec's tag-set invariant (no duplicates) does
not hold after every sequence of operations. -/
theorem claim3_tags_not_deduplicated :
    ¬ TagsSpecInv (runOps [Op.add "x" "d" ["foo", "foo"]]) := by
  decide

/-- Claim C3, amended: after any sequence of `add_entry`, `add_tag`,
`remove_tag` and `update_tags` starting from the empty store, every
stored tag is lowercase (each operation lowercases the tags it stores);
but `add_entry` neither de-duplicates its tag arguments nor rejects
empty ones, so the no-duplicates and non-emptiness parts fail. -/
theorem claim3_tags_lowercase (ops : List Op) :
    ∀ p ∈ runOps ops, ∀ t ∈ p.2.tags, lowerStr t = t := by
  have h0 : TagsLowered ([] : Store) := by
    intro p hp
    cases hp
  exact tagsLowered_foldl h0 ops

/-- Witness for claim C3 at a concrete operation sequence, entry and
tag. -/
theorem claim3_tags_lowercase_witness : lowerStr "foo" = "foo" :=
  claim3_tags_lowercase [Op.add "x" "d" ["Foo"]] ("x", ⟨"d", ["foo"]⟩)
    (by decide) "foo" (by decide)

/-- Claim C4, counterexample: with an entry whose tag set is `{"foo"}`,
the tag `"FOO"` is not in the tag set, yet `remove_tag("e", "FOO")`
succeeds (it removes `"foo"`) instead of failing with `TagNotFound`. -/
theorem claim4_remove_tag_case_variant :
    find? [("e", ⟨"d", ["foo"]⟩)] "e" = some ⟨"d", ["foo"]⟩ ∧
    "FOO" ∉ (Entry.mk "d" ["foo"]).tags ∧
    (remove_tag "e" "FOO" [("e", ⟨"d", ["foo"]⟩)]).2 = none := by
  decide

/-- Claim C4, amended: for an entry present in the store and a tag whose
lowercased form is not in that entry's tag list, `remove_tag` fails with
`TagNotFound` and leaves the store unchanged (a case-variant of a
present tag instead succeeds); when the entry is absent it fails with
`EntryNotFound`, also leaving the store unchanged. -/
theorem claim4_remove_tag_missing (s : Store) (n t : String) :
    (∀ e, find? s n = some e → lowerStr t ∉ e.tags →
      remove_tag n t s = (s, some Err.tagNotFound)) ∧
    (find? s n = none → remove_tag n t s = (s, some Err.entryNotFound)) := by
  constructor
  · intro e he ht
    simp [remove_tag, he, ht]
  · intro he
    simp [remove_tag, he]

/-- Witness for claim C4 at a concrete store, entry and tag. -/
theorem claim4_remove_tag_missing_witness :
    remove_tag "e" "bar" [("e", ⟨"d", ["foo"]⟩)] =
      ([("e", ⟨"d", ["foo"]⟩)], some Err.tagNotFound) :=
  (claim4_remove_tag_missing [("e", ⟨"d", ["foo"]⟩)] "e" "bar").1
    ⟨"d", ["foo"]⟩ (by decide) (by decide)

/-- Claim C5: saving a store satisfying the data-model invariants and
loading the saved document yields the original store — the same entry
names in the same order, each with its description and tag list. -/
theorem claim5_roundtrip (s : Store) (h : StoreInv s) :
    jsonToStore (storeToJson s) = some s := by
  simp [jsonToStore, storeToJson, decodeStore_encode]

/-- Witness for claim C5 at a concrete invariant-satisfying store. -/
theorem claim5_roundtrip_witness :
    jsonToStore (storeToJson
        [("trip", ⟨"travel plans", ["flights", "hotel"]⟩)]) =
      some [("trip", ⟨"travel plans", ["flights", "hotel"]⟩)] :=
  claim5_roundtrip [("trip", ⟨"travel plans", ["flights", "hotel"]⟩)]
    (by decide)

/-- Claim C6: on an entry present in the store, adding two case-variants
of one tag (in either order) leaves exactly one occurrence of the
lowercased tag, and adding an already-present (lowercased) tag succeeds
and leaves the tag set unchanged. -/
theorem claim6_add_tag_idempotent (s : Store) (n t1 t2 : String)
    (ent : Entry) (h : find? s n = some ent)
    (hc : lowerStr t1 = lowerStr t2) :
    (add_tag n t1 s).2 = none ∧
    (add_tag n t2 (add_tag n t1 s).1).2 = none ∧
    (∃ e2, find? (add_tag n t2 (add_tag n t1 s).1).1 n = some e2 ∧
      List.count (lowerStr t1) e2.tags = 1 ∧
      List.count (lowerStr t2) e2.tags = 1) ∧
    (lowerStr t2 ∈ ent.tags →
      ∃ e1, find? (add_tag n t2 s).1 n = some e1 ∧
        ∀ x, x ∈ e1.tags ↔ x ∈ ent.tags) := by
  have hs1 : add_tag n t1 s =
      (setE s n ⟨ent.description, (ent.tags ++ [lowerStr t1]).dedup⟩, none) := by
    simp [add_tag, h]
  refine ⟨by rw [hs1], ?_, ?_, ?_⟩
  · rw [hs1]
    simp [add_tag, find?_setE_self]
  · rw [hs1]
    refine ⟨⟨ent.description,
      ((ent.tags ++ [lowerStr t1]).dedup ++ [lowerStr t2]).dedup⟩, ?_, ?_, ?_⟩
    · simp [add_tag, find?_setE_self]
    · rw [hc, List.count_dedup]
      rw [if_pos (List.mem_append.mpr (Or.inr (List.mem_singleton.mpr rfl)))]
    · rw [List.count_dedup]
      rw [if_pos (List.mem_append.mpr (Or.inr (List.mem_singleton.mpr rfl)))]
  · intro hin
    refine ⟨⟨ent.description, (ent.tags ++ [lowerStr t2]).dedup⟩, ?_, ?_⟩
    · simp [add_tag, h, find?_setE_self]
    · intro x
      constructor
      · intro hx
        rcases List.mem_append.mp (List.mem_dedup.mp hx) with hx' | hx'
        · exact hx'
        · rw [List.mem_singleton.mp hx']
          exact hin
      · intro hx
        exact List.mem_dedup.mpr (List.mem_append.mpr (Or.inl hx))

/-- Witness for claim C6 at a concrete store and tag pair. -/
theorem claim6_add_tag_idempotent_witness :
    ∃ e2, find? (add_tag "trip" "foo"
        (add_tag "trip" "Foo" [("trip", ⟨"d", []⟩)]).1).1 "trip" = some e2 ∧
      List.count (lowerStr "Foo") e2.tags = 1 ∧
      List.count (lowerStr "foo") e2.tags = 1 :=
  (claim6_add_tag_idempotent [("trip", ⟨"d", []⟩)] "trip" "Foo" "foo"
    ⟨"d", []⟩ (by decide) (by decide)).2.2.1

/-- Claim C7: on an entry present in the store, `edit_description`
succeeds, the subsequent lookup returns the new description with the
tags untouched; on an absent name it fails with `EntryNotFound` and
leaves the store unchanged. -/
theorem claim7_edit_description (s : Store) (n d : String) :
    (∀ ent, find? s n = some ent →
      (edit_description n d s).2 = none ∧
      find? (edit_description n d s).1 n = some ⟨d, ent.tags⟩) ∧
    (find? s n = none →
      edit_description n d s = (s, some Err.entryNotFound)) := by
  constructor
  · intro ent he
    constructor
    · simp [edit_description, he]
    · simp [edit_description, he, find?_setE_self]
  · intro he
    simp [edit_description, he]

/-- Witness for claim C7 at a concrete store. -/
theorem claim7_edit_description_witness :
    (edit_description "a" "new" [("a", ⟨"old", ["t"]⟩)]).2 = none ∧
    find? (edit_description "a" "new" [("a", ⟨"old", ["t"]⟩)]).1 "a" =
      some ⟨"new", ["t"]⟩ :=
  (claim7_edit_description [("a", ⟨"old", ["t"]⟩)] "a" "new").1
    ⟨"old", ["t"]⟩ (by decide)

/-- Claim C8, counterexample: two stores equal as mappings but built in
different insertion orders serialize to different bytes under
`save_file` (`json.dump` without `sort_keys` writes insertion order), so
the saved output is not a function of the mapping alone and is not
sorted. -/
theorem claim8_save_depends_on_order :
    (∀ k, find? [("a", ⟨"d", []⟩), ("b", ⟨"e", []⟩)] k =
      find? [("b", ⟨"e", []⟩), ("a", ⟨"d", []⟩)] k) ∧
    save_file [("a", ⟨"d", []⟩), ("b", ⟨"e", []⟩)] ≠
      save_file [("b", ⟨"e", []⟩), ("a", ⟨"d", []⟩)] := by
  constructor
  · intro k
    by_cases h1 : "a" = k
    · subst h1
      decide
    · by_cases h2 : "b" = k
      · subst h2
        decide
      · simp [find?, h1, h2]
  · decide

/-- Claim C8, amended: `save_file` writes entries in insertion order, so
its output is a function of the ordered store only; the key-sorted
serialization (`sort_keys=True`, as used by `save_file_pretty` and
`print_entries_json`) is deterministic in the mapping alone — two stores
with distinct keys that are equal as mappings produce byte-identical
sorted output regardless of insertion history. -/
theorem claim8_sorted_save_of_eq_map (s1 s2 : Store)
    (h1 : keysNodup s1) (h2 : keysNodup s2)
    (hm : ∀ k, find? s1 k = find? s2 k) :
    save_file_pretty s1 = save_file_pretty s2 := by
  unfold save_file_pretty
  rw [sortByKey_eq h1 h2 hm]

/-- Witness for claim C8 at two concrete stores with opposite insertion
orders. -/
theorem claim8_sorted_save_of_eq_map_witness :
    save_file_pretty [("a", ⟨"d", []⟩), ("b", ⟨"e", []⟩)] =
      save_file_pretty [("b", ⟨"e", []⟩), ("a", ⟨"d", []⟩)] :=
  claim8_sorted_save_of_eq_map
    [("a", ⟨"d", []⟩), ("b", ⟨"e", []⟩)]
    [("b", ⟨"e", []⟩), ("a", ⟨"d", []⟩)]
    (by decide) (by decide)
    (by
      intro k
      by_cases h1 : "a" = k
      · subst h1
        decide
      · by_cases h2 : "b" = k
        · subst h2
          decide
        · simp [find?, h1, h2])

/-- Claim C9: `remove_tag` lowercases its tag argument before removing:
when the lowercased tag is present on an entry, the call succeeds, the
entry's tag list becomes the old list with the first occurrence of the
lowercased tag erased (one fewer occurrence; none left if the list had
no duplicates), and the description is untouched. -/
theorem claim9_remove_tag_lowercases (s : Store) (n t : String)
    (ent : Entry) (h : find? s n = some ent)
    (ht : lowerStr t ∈ ent.tags) :
    (remove_tag n t s).2 = none ∧
    find? (remove_tag n t s).1 n =
      some ⟨ent.description, ent.tags.erase (lowerStr t)⟩ ∧
    List.count (lowerStr t) (ent.tags.erase (lowerStr t)) =
      List.count (lowerStr t) ent.tags - 1 ∧
    (ent.tags.Nodup → lowerStr t ∉ ent.tags.erase (lowerStr t)) := by
  refine ⟨?_, ?_, ?_, ?_⟩
  · simp [remove_tag, h, ht]
  · simp [remove_tag, h, ht, find?_setE_self]
  · exact List.count_erase_self _ _
  · intro hnd
    exact hnd.not_mem_erase

/-- Witness for claim C9: removing `"FOO"` where the entry holds
`"foo"`. -/
theorem claim9_remove_tag_lowercases_witness :
    (remove_tag "e" "FOO" [("e", ⟨"d", ["foo"]⟩)]).2 = none :=
  (claim9_remove_tag_lowercases [("e", ⟨"d", ["foo"]⟩)] "e" "FOO"
    ⟨"d", ["foo"]⟩ (by decide) (by decide)).1

/-- Claim C10: `edit_description`, `add_tag`, `remove_tag` and
`update_tags` on entry `n` leave the lookup of every other name `k`
unchanged, whether they succeed or fail. -/
theorem claim10_frame (s : Store) (n k d t : String) (ts : List String)
    (hne : k ≠ n) :
    find? (edit_description n d s).1 k = find? s k ∧
    find? (add_tag n t s).1 k = find? s k ∧
    find? (remove_tag n t s).1 k = find? s k ∧
    find? (update_tags n ts s).1 k = find? s k := by
  refine ⟨?_, ?_, ?_, ?_⟩
  · cases hf : find? s n with
    | none => simp [edit_description, hf]
    | some e => simp [edit_description, hf, find?_setE_ne s _ hne]
  · cases hf : find? s n with
    | none => simp [add_tag, hf]
    | some e => simp [add_tag, hf, find?_setE_ne s _ hne]
  · cases hf : find? s n with
    | none => simp [remove_tag, hf]
    | some e =>
      by_cases hmem : lowerStr t ∈ e.tags
      · simp [remove_tag, hf, hmem, find?_setE_ne s _ hne]
      · simp [remove_tag, hf, hmem]
  · cases hf : find? s n with
    | none => simp [update_tags, hf]
    | some e => simp [update_tags, hf, find?_setE_ne s _ hne]

/-- Witness for claim C10 at a concrete two-entry store. -/
theorem claim10_frame_witness :
    find? (edit_description "a" "x"
        [("a", ⟨"d", []⟩), ("b", ⟨"e", []⟩)]).1 "b" =
      find? [("a", ⟨"d", []⟩), ("b", ⟨"e", []⟩)] "b" :=
  (claim10_frame [("a", ⟨"d", []⟩), ("b", ⟨"e", []⟩)] "a" "b" "x" "t" []
    (by decide)).1

end PyDictNotes
